import Mathlib

/-!
Verification of the bookmark-checker core: a shallow embedding of the
JSON tree model (serde_json values restricted to what the algorithms
inspect), the leaf-extraction traversal of parser.rs, the targeted
removal pass of cleaner.rs, the link checker of checker.rs, the
progress reporter of progress.rs, and the file-rewriting glue of
cleaner.rs, together with theorems settling the specified properties.
-/

namespace BookmarkChecker

/-- Field-name and tag constants used by the algorithms. -/
def childrenKey : String := "children"

def typeKey : String := "type"

def urlKey : String := "url"

def nameKey : String := "name"

def urlTag : String := "url"

/-- Embedding of serde_json's Value: null, bool, number, string, array,
object.  Objects are modelled as ordered association lists; serde_json
maps have unique keys, which theorems assume through nodupKeys where the
proof needs it.  Numbers are collapsed to Int since the algorithms never
inspect numeric values. -/
inductive JValue where
  | null : JValue
  | bool (b : Bool) : JValue
  | num (n : Int) : JValue
  | str (s : String) : JValue
  | arr (elems : List JValue) : JValue
  | obj (fields : List (String × JValue)) : JValue

/-- Lookup of a key in an object's field list, mirroring map.get. -/
def lookupField : List (String × JValue) → String → Option JValue
  | [], _ => none
  | (k, v) :: rest, key => if k = key then some v else lookupField rest key

/-- The url of an object when it is a url-marked node carrying a
string-valued url field; the singleton list is empty otherwise. -/
def selfUrl (fields : List (String × JValue)) : List String :=
  match lookupField fields typeKey with
  | some (.str t) =>
    if t = urlTag then
      match lookupField fields urlKey with
      | some (.str u) => [u]
      | _ => []
    else []
  | _ => []

/-- The match test of remove_node in cleaner.rs: the node is an object
whose type field is the string url, whose url field is a string, and
whose url is in the target set. -/
def matchedFields (targets : List String) (fields : List (String × JValue)) : Bool :=
  match lookupField fields typeKey with
  | some (.str t) =>
    if t = urlTag then
      match lookupField fields urlKey with
      | some (.str u) => targets.contains u
      | _ => false
    else false
  | _ => false

mutual

/-- Embedding of remove_node in cleaner.rs: returns the running removal
count, whether the parent must excise this node, and the rewritten node. -/
def removeNode (targets : List String) : JValue → Nat × Bool × JValue
  | .obj fields =>
    if matchedFields targets fields then (1, true, .obj fields)
    else
      let r := removeFields targets fields
      (r.1, false, .obj r.2)
  | .arr elems =>
    let r := removeElems targets elems
    (r.1, false, .arr r.2)
  | v => (0, false, v)

/-- Embedding of the object-field processing of remove_node: the
children binding is recursed element-wise when it is an array (and left
alone otherwise), every other binding is recursed as a node and excised
from the map when flagged. -/
def removeFields (targets : List String) :
    List (String × JValue) → Nat × List (String × JValue)
  | [] => (0, [])
  | (k, v) :: rest =>
    if k = childrenKey then
      match v with
      | .arr elems =>
        let c := removeElems targets elems
        let r := removeFields targets rest
        (c.1 + r.1, (k, .arr c.2) :: r.2)
      | _ =>
        let r := removeFields targets rest
        (r.1, (k, v) :: r.2)
    else
      let p := removeNode targets v
      let r := removeFields targets rest
      (p.1 + r.1, if p.2.1 then r.2 else (k, p.2.2) :: r.2)

/-- Embedding of the compacting while-loop of remove_node over an array:
each element is processed in order and excised when flagged, survivors
keeping their relative order. -/
def removeElems (targets : List String) : List JValue → Nat × List JValue
  | [] => (0, [])
  | v :: rest =>
    let p := removeNode targets v
    let r := removeElems targets rest
    (p.1 + r.1, if p.2.1 then r.2 else p.2.2 :: r.2)

end

/-- Embedding of remove_targets in cleaner.rs: the root's removal flag is
discarded, so the root itself is never excised. -/
def removeTargets (targets : List String) (root : JValue) : Nat × JValue :=
  ((removeNode targets root).1, (removeNode targets root).2.2)

mutual

/-- The urls of the url-marked nodes a traversal reaches, in traversal
order: the node's own url when it is a url-marked node with a string
url, then the children array, then the other fields. -/
def urls : JValue → List String
  | .obj fields => selfUrl fields ++ urlsFields fields
  | .arr elems => urlsElems elems
  | _ => []

/-- Urls reached through an object's bindings: arrays under a children
key element-wise, non-array children values skipped, all other bindings
as nodes. -/
def urlsFields : List (String × JValue) → List String
  | [] => []
  | (k, v) :: rest =>
    if k = childrenKey then
      (match v with
       | .arr elems => urlsElems elems
       | _ => []) ++ urlsFields rest
    else urls v ++ urlsFields rest

/-- Urls reached through the elements of an array. -/
def urlsElems : List JValue → List String
  | [] => []
  | v :: rest => urls v ++ urlsElems rest

end

/-- Whether a list of strings has no duplicates, computed. -/
def nodupB : List String → Bool
  | [] => true
  | k :: rest => (!rest.contains k) && nodupB rest

mutual

/-- Every object in the tree has pairwise-distinct keys, as serde_json
maps guarantee for parsed JSON. -/
def nodupKeys : JValue → Bool
  | .obj fields => nodupB (fields.map Prod.fst) && nodupKeysFields fields
  | .arr elems => nodupKeysElems elems
  | _ => true

/-- nodupKeys over an object's binding values. -/
def nodupKeysFields : List (String × JValue) → Bool
  | [] => true
  | (_, v) :: rest => nodupKeys v && nodupKeysFields rest

/-- nodupKeys over an array's elements. -/
def nodupKeysElems : List JValue → Bool
  | [] => true
  | v :: rest => nodupKeys v && nodupKeysElems rest

end

mutual

/-- No url-marked leaf carries further url-marked nodes beneath it: a
node whose own url list is nonempty has a url-free body.  Conformant
bookmark trees satisfy this (leaves are terminal). -/
def wfLeaves : JValue → Bool
  | .obj fields =>
    ((selfUrl fields).isEmpty || (urlsFields fields).isEmpty) && wfLeavesFields fields
  | .arr elems => wfLeavesElems elems
  | _ => true

/-- wfLeaves over an object's binding values. -/
def wfLeavesFields : List (String × JValue) → Bool
  | [] => true
  | (_, v) :: rest => wfLeaves v && wfLeavesFields rest

/-- wfLeaves over an array's elements. -/
def wfLeavesElems : List JValue → Bool
  | [] => true
  | v :: rest => wfLeaves v && wfLeavesElems rest

end

/-- Whether the remove_node match test fires at the root value itself. -/
def matchedRoot (targets : List String) : JValue → Bool
  | .obj fields => matchedFields targets fields
  | _ => false

/-- A bookmark entry: the Bookmark struct of model.rs. -/
structure Bookmark where
  name : String
  url : String
deriving DecidableEq

/-- The leaf test of collect_nodes in parser.rs: an object whose type
field is the string url and whose name and url fields are both strings
yields a Bookmark. -/
def leafOfFields (fields : List (String × JValue)) : Option Bookmark :=
  match lookupField fields typeKey with
  | some (.str t) =>
    if t = urlTag then
      match lookupField fields nameKey, lookupField fields urlKey with
      | some (.str n), some (.str u) => some { name := n, url := u }
      | _, _ => none
    else none
  | _ => none

mutual

/-- Embedding of collect_nodes in parser.rs: emit the node's own
bookmark first, then the children array element-wise, then every other
field, skipping the children key in the field loop. -/
def collectNode : JValue → List Bookmark
  | .obj fields =>
    (match leafOfFields fields with
     | some b => [b]
     | none => [])
    ++ collectChildren fields
    ++ collectFields fields
  | .arr elems => collectElems elems
  | _ => []

/-- The children phase of collect_nodes: the first binding under the
children key, recursed element-wise when it is an array.  Equivalent to
looking the key up in the object's map. -/
def collectChildren : List (String × JValue) → List Bookmark
  | [] => []
  | (k, v) :: rest =>
    if k = childrenKey then
      match v with
      | .arr elems => collectElems elems
      | _ => []
    else collectChildren rest

/-- The field loop of collect_nodes, which skips the children key. -/
def collectFields : List (String × JValue) → List Bookmark
  | [] => []
  | (k, v) :: rest =>
    (if k = childrenKey then [] else collectNode v) ++ collectFields rest

/-- collect_nodes over the elements of an array. -/
def collectElems : List JValue → List Bookmark
  | [] => []
  | v :: rest => collectNode v ++ collectElems rest

end

mutual

/-- The values the extraction traversal visits, in visit order: a
depth-first pre-order enumeration in which a node precedes everything
below it and an object's children array is visited before its other
fields, the children key never being entered twice.  This definition
follows the specification's description of the traversal order. -/
def nodesOf : JValue → List JValue
  | .obj fields =>
    .obj fields :: (nodesChildren fields ++ nodesFields fields)
  | .arr elems => .arr elems :: nodesElems elems
  | v => [v]

/-- The children phase of the enumeration: the first binding under the
children key, entered element-wise when it is an array. -/
def nodesChildren : List (String × JValue) → List JValue
  | [] => []
  | (k, v) :: rest =>
    if k = childrenKey then
      match v with
      | .arr elems => nodesElems elems
      | _ => []
    else nodesChildren rest

/-- nodesOf over an object's bindings, skipping the children key. -/
def nodesFields : List (String × JValue) → List JValue
  | [] => []
  | (k, v) :: rest =>
    (if k = childrenKey then [] else nodesOf v) ++ nodesFields rest

/-- nodesOf over the elements of an array. -/
def nodesElems : List JValue → List JValue
  | [] => []
  | v :: rest => nodesOf v ++ nodesElems rest

end

/-- The bookmark a visited value contributes, if any. -/
def leafValue : JValue → Option Bookmark
  | .obj fields => leafOfFields fields
  | _ => none

/-- Whether a value is an object whose discriminator field marks it as a
url entry, regardless of its other fields. -/
def isUrlMarked : JValue → Bool
  | .obj fields =>
    match lookupField fields typeKey with
    | some (.str t) => t = urlTag
    | _ => false
  | _ => false

/-- A failure record as checker.rs declares it: the bookmark and a
human-readable reason. -/
structure LinkFailure where
  bookmark : Bookmark
  reason : String
deriving DecidableEq

/-- The transport-level outcome of one GET request: either the request
completed with an HTTP status code, or it failed with a transport error
whose display text is the message. -/
inductive FetchResult where
  | success (status : Nat) : FetchResult
  | error (message : String) : FetchResult

def okPhrase : String := "OK"

def badRequestPhrase : String := "Bad Request"

def unauthorizedPhrase : String := "Unauthorized"

def forbiddenPhrase : String := "Forbidden"

def notFoundPhrase : String := "Not Found"

def internalServerErrorPhrase : String := "Internal Server Error"

/-- The canonical reason phrases of the http crate's StatusCode table,
restricted to the statuses this development evaluates. -/
def canonicalReason (status : Nat) : Option String :=
  if status = 200 then some okPhrase
  else if status = 400 then some badRequestPhrase
  else if status = 401 then some unauthorizedPhrase
  else if status = 403 then some forbiddenPhrase
  else if status = 404 then some notFoundPhrase
  else if status = 500 then some internalServerErrorPhrase
  else none

def unknownPhrase : String := "Unknown"

def httpSpace : String := "HTTP "

def oneSpace : String := " "

def requestFailedPre : String := "Request failed: "

def http404Reason : String := "HTTP 404 Not Found"

/-- Embedding of LinkFailure::from_status in checker.rs. -/
def fromStatus (b : Bookmark) (status : Nat) : LinkFailure :=
  { bookmark := b
    reason := httpSpace ++ toString status ++ oneSpace
      ++ (canonicalReason status).getD unknownPhrase }

/-- Embedding of LinkFailure::from_error in checker.rs; the message is
the display text of the reqwest error. -/
def fromError (b : Bookmark) (message : String) : LinkFailure :=
  { bookmark := b, reason := requestFailedPre ++ message }

/-- Embedding of check_single in checker.rs: a completed response is a
failure exactly when its status is 404, and a transport error always
produces a failure. -/
def checkSingle (b : Bookmark) (resp : FetchResult) : Option LinkFailure :=
  match resp with
  | .success status =>
    if status = 404 then some (fromStatus b status) else none
  | .error message => some (fromError b message)

/-- Modelled from the spec: the closed failure classification that
report.rs imports from checker.rs as FailureKind but whose declaration
is absent from the checker source in this snapshot. -/
inductive FailureKind where
  | notFound : FailureKind
  | unauthorized : FailureKind
  | connection : FailureKind
deriving DecidableEq

/-- Modelled from the spec: the kind assigned to each per-leaf outcome.
Transport failure gives Connection, HTTP 404 gives NotFound, the 401
and 403 statuses give Unauthorized, every other status is reachable and
yields no failure.  The kind field of LinkFailure and its assignment are
referenced by report.rs but missing from checker.rs. -/
def specClassify : FetchResult → Option FailureKind
  | .success status =>
    if status = 404 then some .notFound
    else if status = 401 ∨ status = 403 then some .unauthorized
    else none
  | .error _ => some .connection

/-- Which of the engine resources a run of check_bookmarks constructed:
the shared network client and the worker-pool progress reporter. -/
structure CheckTrace where
  clientBuilt : Bool
  reporterBuilt : Bool
deriving DecidableEq

/-- Embedding of check_bookmarks in checker.rs: the empty input returns
before any resource is constructed; otherwise the client build result is
consulted (its failure aborting the run) and every bookmark is checked
once against the shared fetch behaviour. -/
def checkBookmarks (build : Except String (Bookmark → FetchResult))
    (bookmarks : List Bookmark) : Except String (List LinkFailure) × CheckTrace :=
  if bookmarks.isEmpty then
    (Except.ok [], { clientBuilt := false, reporterBuilt := false })
  else
    match build with
    | .error e => (.error e, { clientBuilt := true, reporterBuilt := false })
    | .ok fetch =>
      (.ok (bookmarks.filterMap fun b => checkSingle b (fetch b)),
        { clientBuilt := true, reporterBuilt := true })

/-- The progress state of progress.rs: the overall bar position and one
message slot per worker bar. -/
structure ProgressState where
  overallPos : Nat
  workers : List String
deriving DecidableEq

def idleMsg : String := "idle"

/-- Embedding of ProgressReporter::new: position zero and one idle slot
per worker. -/
def progressNew (workerCount : Nat) : ProgressState :=
  { overallPos := 0, workers := List.replicate workerCount idleMsg }

/-- Embedding of ProgressHandle::inc: advance the overall bar by one. -/
def progressInc (st : ProgressState) : ProgressState :=
  { st with overallPos := st.overallPos + 1 }

/-- Embedding of ProgressHandle::worker_start: workers.get(idx) guards
the update, so an out-of-range index leaves the state untouched. -/
def workerStart (st : ProgressState) (idx : Nat) (msg : String) : ProgressState :=
  if idx < st.workers.length then
    { st with workers := st.workers.set idx msg }
  else st

/-- Embedding of ProgressHandle::worker_finish: reset the slot to idle
under the same bounds guard. -/
def workerFinish (st : ProgressState) (idx : Nat) : ProgressState :=
  workerStart st idx idleMsg

/-- The result of clean_failures: the removal count and whether a backup
file was produced. -/
structure CleanupResult where
  removed : Nat
  backupMade : Bool
deriving DecidableEq

/-- The file-system state clean_failures interacts with: whether the
report file exists, the target urls its parsed contents yield, the
parsed bookmarks tree, and the observable effects on the bookmarks
file. -/
structure FsState where
  reportExists : Bool
  reportTargets : List String
  bookmarks : JValue
  backupMade : Bool
  bookmarksRead : Bool
  bookmarksWritten : Bool

/-- Embedding of clean_failures in cleaner.rs: a missing report returns
the default result with no file activity; an empty target set likewise;
otherwise the bookmarks file is backed up and read, the removal pass
runs, and the file is rewritten only when the pass removed at least one
entry. -/
def cleanFailures (fs : FsState) : FsState × CleanupResult :=
  if fs.reportExists = false then
    (fs, { removed := 0, backupMade := false })
  else if fs.reportTargets.isEmpty then
    (fs, { removed := 0, backupMade := false })
  else
    let fs1 := { fs with backupMade := true, bookmarksRead := true }
    let r := removeTargets fs.reportTargets fs.bookmarks
    if r.1 > 0 then
      ({ fs1 with bookmarks := r.2, bookmarksWritten := true },
        { removed := r.1, backupMade := true })
    else
      (fs1, { removed := r.1, backupMade := true })

/-! Concrete values used to exercise the definitions. -/

def exUrlA : String := "https://remove.example"

def exUrlB : String := "https://keep.example"

def exUrlC : String := "https://missing.example"

def privateName : String := "Private"

def privateUrl : String := "https://example.com/private"

def busyMsg : String := "checking"

/-- A url leaf carrying exUrlA. -/
def exLeafA : JValue := .obj [(typeKey, .str urlTag), (urlKey, .str exUrlA)]

/-- A url leaf carrying exUrlB. -/
def exLeafB : JValue := .obj [(typeKey, .str urlTag), (urlKey, .str exUrlB)]

/-- A malformed leaf: url-marked with exUrlA but with a further leaf in
a children array beneath it. -/
def exLeafAWithChild : JValue :=
  .obj [(typeKey, .str urlTag), (urlKey, .str exUrlA), (childrenKey, .arr [exLeafB])]

/-- A container whose children are the two plain leaves. -/
def exTree : JValue := .obj [(childrenKey, .arr [exLeafA, exLeafB])]

/-- A container whose single child is the malformed nested leaf. -/
def exNested : JValue := .obj [(childrenKey, .arr [exLeafAWithChild])]

/-- A url-marked node with neither name nor url field. -/
def exBareUrlNode : JValue := .obj [(typeKey, .str urlTag)]

/-- A tree without any url-marked node. -/
def exNoUrls : JValue := .obj [(childrenKey, .arr [.num 1, .str exUrlC])]

def exBookmark : Bookmark := { name := privateName, url := privateUrl }

/-- A file-system state with no report file present. -/
def exFsNoReport : FsState :=
  { reportExists := false, reportTargets := [exUrlA], bookmarks := exTree,
    backupMade := false, bookmarksRead := false, bookmarksWritten := false }

/-- A file-system state whose report targets match nothing in the
tree. -/
def exFsNoMatch : FsState :=
  { reportExists := true, reportTargets := [exUrlC], bookmarks := exTree,
    backupMade := false, bookmarksRead := false, bookmarksWritten := false }

/-! Theorems.  First a member-wise induction principle for the nested
tree type, then structural lemmas about the removal pass, then the
claim theorems. -/

/-- Induction over JValue giving the inductive hypothesis at every array
element and every object binding value. -/
theorem jvalue_induction (motive : JValue → Prop)
    (hnull : motive .null)
    (hbool : ∀ b, motive (.bool b))
    (hnum : ∀ n, motive (.num n))
    (hstr : ∀ s, motive (.str s))
    (harr : ∀ elems, (∀ v ∈ elems, motive v) → motive (.arr elems))
    (hobj : ∀ fields, (∀ kv ∈ fields, motive kv.2) → motive (.obj fields)) :
    ∀ v, motive v
  | .null => hnull
  | .bool b => hbool b
  | .num n => hnum n
  | .str s => hstr s
  | .arr elems =>
    harr elems (fun v hv =>
      jvalue_induction motive hnull hbool hnum hstr harr hobj v)
  | .obj fields =>
    hobj fields (fun kv hkv =>
      jvalue_induction motive hnull hbool hnum hstr harr hobj kv.2)
termination_by v => sizeOf v
decreasing_by
  · have := List.sizeOf_lt_of_mem hv
    simp only [JValue.arr.sizeOf_spec]
    omega
  · have h1 := List.sizeOf_lt_of_mem hkv
    have h2 : sizeOf kv.2 < sizeOf kv := by
      cases kv
      simp only [Prod.mk.sizeOf_spec]
      omega
    simp only [JValue.obj.sizeOf_spec]
    omega

@[simp]
theorem removeNode_null (targets : List String) :
    removeNode targets .null = (0, false, .null) := by
  simp [removeNode]

@[simp]
theorem removeNode_bool (targets : List String) (b : Bool) :
    removeNode targets (.bool b) = (0, false, .bool b) := by
  simp [removeNode]

@[simp]
theorem removeNode_num (targets : List String) (n : Int) :
    removeNode targets (.num n) = (0, false, .num n) := by
  simp [removeNode]

@[simp]
theorem removeNode_str (targets : List String) (s : String) :
    removeNode targets (.str s) = (0, false, .str s) := by
  simp [removeNode]

@[simp]
theorem removeNode_arr (targets : List String) (elems : List JValue) :
    removeNode targets (.arr elems) =
      ((removeElems targets elems).1, false, .arr (removeElems targets elems).2) := by
  simp [removeNode]

theorem removeNode_obj (targets : List String) (fields : List (String × JValue)) :
    removeNode targets (.obj fields) =
      if matchedFields targets fields then (1, true, .obj fields)
      else ((removeFields targets fields).1, false, .obj (removeFields targets fields).2) := by
  simp [removeNode]

/-- The excision flag of remove_node is exactly the match test at the
node itself. -/
theorem removeNode_flag (targets : List String) (v : JValue) :
    (removeNode targets v).2.1 = matchedRoot targets v := by
  cases v <;> simp only [matchedRoot, removeNode_null, removeNode_bool,
    removeNode_num, removeNode_str, removeNode_arr]
  case obj fields =>
    rw [removeNode_obj]
    by_cases h : matchedFields targets fields <;> simp [h]

@[simp]
theorem removeElems_nil (targets : List String) :
    removeElems targets [] = (0, []) := by
  simp [removeElems]

theorem removeElems_cons (targets : List String) (v : JValue) (rest : List JValue) :
    removeElems targets (v :: rest) =
      ((removeNode targets v).1 + (removeElems targets rest).1,
        if (removeNode targets v).2.1 then (removeElems targets rest).2
        else (removeNode targets v).2.2 :: (removeElems targets rest).2) := by
  simp [removeElems]

@[simp]
theorem removeFields_nil (targets : List String) :
    removeFields targets [] = (0, []) := by
  simp [removeFields]

theorem removeFields_cons_children_arr (targets : List String) (elems : List JValue)
    (rest : List (String × JValue)) :
    removeFields targets ((childrenKey, .arr elems) :: rest) =
      ((removeElems targets elems).1 + (removeFields targets rest).1,
        (childrenKey, .arr (removeElems targets elems).2) :: (removeFields targets rest).2) := by
  simp [removeFields]

theorem removeFields_cons_children_other (targets : List String) (v : JValue)
    (rest : List (String × JValue)) (hv : ∀ elems, v ≠ .arr elems) :
    removeFields targets ((childrenKey, v) :: rest) =
      ((removeFields targets rest).1, (childrenKey, v) :: (removeFields targets rest).2) := by
  cases v
  case arr elems => exact absurd rfl (hv elems)
  all_goals simp [removeFields]

theorem removeFields_cons_other (targets : List String) (k : String) (v : JValue)
    (rest : List (String × JValue)) (hk : k ≠ childrenKey) :
    removeFields targets ((k, v) :: rest) =
      ((removeNode targets v).1 + (removeFields targets rest).1,
        if (removeNode targets v).2.1 then (removeFields targets rest).2
        else (k, (removeNode targets v).2.2) :: (removeFields targets rest).2) := by
  rw [removeFields.eq_def]
  simp [hk]

/-- The match test fires exactly when the node's own url is in the
target set. -/
theorem matchedFields_eq_any (targets : List String) (fields : List (String × JValue)) :
    matchedFields targets fields = (selfUrl fields).any (fun u => targets.contains u) := by
  unfold matchedFields selfUrl
  cases lookupField fields typeKey with
  | none => simp
  | some v =>
    cases v <;> simp only [List.any_nil]
    case str t =>
      by_cases ht : t = urlTag <;> simp only [ht, if_true, if_false, reduceIte]
      · cases lookupField fields urlKey with
        | none => simp
        | some w => cases w <;> simp
      · simp

/-- selfUrl is empty or a singleton. -/
theorem selfUrl_cases (fields : List (String × JValue)) :
    selfUrl fields = [] ∨ ∃ u, selfUrl fields = [u] := by
  unfold selfUrl
  cases lookupField fields typeKey with
  | none => exact Or.inl rfl
  | some v =>
    cases v
    case str t =>
      by_cases ht : t = urlTag <;> simp only [ht, reduceIte]
      · cases lookupField fields urlKey with
        | none => simp
        | some w => cases w <;> simp
      · simp
    all_goals simp

@[simp]
theorem urls_null : urls .null = [] := by simp [urls]

@[simp]
theorem urls_bool (b : Bool) : urls (.bool b) = [] := by simp [urls]

@[simp]
theorem urls_num (n : Int) : urls (.num n) = [] := by simp [urls]

@[simp]
theorem urls_str (s : String) : urls (.str s) = [] := by simp [urls]

@[simp]
theorem urls_arr (elems : List JValue) : urls (.arr elems) = urlsElems elems := by
  simp [urls]

@[simp]
theorem urls_obj (fields : List (String × JValue)) :
    urls (.obj fields) = selfUrl fields ++ urlsFields fields := by
  simp [urls]

@[simp]
theorem urlsElems_nil : urlsElems [] = [] := by simp [urlsElems]

@[simp]
theorem urlsElems_cons (v : JValue) (rest : List JValue) :
    urlsElems (v :: rest) = urls v ++ urlsElems rest := by
  simp [urlsElems]

@[simp]
theorem urlsFields_nil : urlsFields [] = [] := by simp [urlsFields]

theorem urlsFields_cons_children_arr (elems : List JValue) (rest : List (String × JValue)) :
    urlsFields ((childrenKey, .arr elems) :: rest) = urlsElems elems ++ urlsFields rest := by
  rw [urlsFields.eq_def]
  simp

theorem urlsFields_cons_children_other (v : JValue) (rest : List (String × JValue))
    (hv : ∀ elems, v ≠ .arr elems) :
    urlsFields ((childrenKey, v) :: rest) = urlsFields rest := by
  rw [urlsFields.eq_def]
  cases v
  case arr elems => exact absurd rfl (hv elems)
  all_goals simp

theorem urlsFields_cons_other (k : String) (v : JValue) (rest : List (String × JValue))
    (hk : k ≠ childrenKey) :
    urlsFields ((k, v) :: rest) = urls v ++ urlsFields rest := by
  rw [urlsFields.eq_def]
  simp [hk]

theorem nodupKeysFields_mem (fields : List (String × JValue)) (h : nodupKeysFields fields = true) :
    ∀ kv ∈ fields, nodupKeys kv.2 = true := by
  induction fields with
  | nil => intro kv hkv; cases hkv
  | cons head rest ih =>
    obtain ⟨k, v⟩ := head
    rw [nodupKeysFields] at h
    intro kv hkv
    rcases List.mem_cons.mp hkv with h1 | h1
    · subst h1; exact (Bool.and_eq_true _ _ |>.mp h).1
    · exact ih (Bool.and_eq_true _ _ |>.mp h).2 kv h1

theorem nodupKeysElems_mem (elems : List JValue) (h : nodupKeysElems elems = true) :
    ∀ v ∈ elems, nodupKeys v = true := by
  induction elems with
  | nil => intro v hv; cases hv
  | cons head rest ih =>
    rw [nodupKeysElems] at h
    intro v hv
    rcases List.mem_cons.mp hv with h1 | h1
    · subst h1; exact (Bool.and_eq_true _ _ |>.mp h).1
    · exact ih (Bool.and_eq_true _ _ |>.mp h).2 v h1

theorem wfLeavesFields_mem (fields : List (String × JValue)) (h : wfLeavesFields fields = true) :
    ∀ kv ∈ fields, wfLeaves kv.2 = true := by
  induction fields with
  | nil => intro kv hkv; cases hkv
  | cons head rest ih =>
    obtain ⟨k, v⟩ := head
    rw [wfLeavesFields] at h
    intro kv hkv
    rcases List.mem_cons.mp hkv with h1 | h1
    · subst h1; exact (Bool.and_eq_true _ _ |>.mp h).1
    · exact ih (Bool.and_eq_true _ _ |>.mp h).2 kv h1

theorem wfLeavesElems_mem (elems : List JValue) (h : wfLeavesElems elems = true) :
    ∀ v ∈ elems, wfLeaves v = true := by
  induction elems with
  | nil => intro v hv; cases hv
  | cons head rest ih =>
    rw [wfLeavesElems] at h
    intro v hv
    rcases List.mem_cons.mp hv with h1 | h1
    · subst h1; exact (Bool.and_eq_true _ _ |>.mp h).1
    · exact ih (Bool.and_eq_true _ _ |>.mp h).2 v h1

/-- An urlsFields membership decomposes along the head binding. -/
theorem urlsFields_cons_sub (k : String) (v : JValue) (rest : List (String × JValue))
    (u : String) (hu : u ∈ urlsFields rest) : u ∈ urlsFields ((k, v) :: rest) := by
  by_cases hk : k = childrenKey
  · subst hk
    by_cases harr : ∃ elems, v = .arr elems
    · obtain ⟨elems, rfl⟩ := harr
      rw [urlsFields_cons_children_arr]
      simp [hu]
    · rw [urlsFields_cons_children_other _ _ (fun e he => harr ⟨e, he⟩)]
      exact hu
  · rw [urlsFields_cons_other _ _ _ hk]
    simp [hu]

/-- Array level of the untouchedness lemma: elements free of target urls
are left exactly as they were, with removal count zero. -/
theorem untouchedElems (targets : List String) (l : List JValue)
    (ih : ∀ v ∈ l, (∀ u ∈ urls v, u ∉ targets) →
      removeNode targets v = (0, false, v))
    (h : ∀ u ∈ urlsElems l, u ∉ targets) :
    removeElems targets l = (0, l) := by
  induction l with
  | nil => simp
  | cons v rest ihl =>
    have hv : removeNode targets v = (0, false, v) := by
      refine ih v (List.mem_cons_self _ _) ?_
      intro u hu
      exact h u (by simp [hu])
    have hrest : removeElems targets rest = (0, rest) := by
      refine ihl (fun w hw => ih w (List.mem_cons_of_mem _ hw)) ?_
      intro u hu
      exact h u (by simp [hu])
    rw [removeElems_cons, hv, hrest]
    simp

/-- Field level of the untouchedness lemma. -/
theorem untouchedFields (targets : List String) (fs : List (String × JValue))
    (ih : ∀ kv ∈ fs, (∀ u ∈ urls kv.2, u ∉ targets) →
      removeNode targets kv.2 = (0, false, kv.2))
    (h : ∀ u ∈ urlsFields fs, u ∉ targets) :
    removeFields targets fs = (0, fs) := by
  induction fs with
  | nil => simp
  | cons head rest ihl =>
    obtain ⟨k, v⟩ := head
    have hrest : removeFields targets rest = (0, rest) :=
      ihl (fun kv hkv => ih kv (List.mem_cons_of_mem _ hkv))
        (fun u hu => h u (urlsFields_cons_sub k v rest u hu))
    by_cases hk : k = childrenKey
    · subst hk
      by_cases harr : ∃ elems, v = .arr elems
      · obtain ⟨elems, rfl⟩ := harr
        have harr2 : removeNode targets (.arr elems) = (0, false, .arr elems) := by
          refine ih (childrenKey, .arr elems) (List.mem_cons_self _ _) ?_
          intro u hu
          refine h u ?_
          rw [urlsFields_cons_children_arr]
          simp only [urls_arr] at hu
          simp [hu]
        rw [removeNode_arr] at harr2
        have h1 : (removeElems targets elems).1 = 0 := congrArg Prod.fst harr2
        have h2 : JValue.arr (removeElems targets elems).2 = .arr elems :=
          congrArg (fun p => p.2.2) harr2
        simp only [JValue.arr.injEq] at h2
        rw [removeFields_cons_children_arr, hrest, h1, h2]
        simp
      · rw [removeFields_cons_children_other _ _ _ (fun e he => harr ⟨e, he⟩), hrest]
    · have hv : removeNode targets v = (0, false, v) := by
        refine ih (k, v) (List.mem_cons_self _ _) ?_
        intro u hu
        refine h u ?_
        rw [urlsFields_cons_other _ _ _ hk]
        simp [hu]
      rw [removeFields_cons_other _ _ _ _ hk, hv, hrest]
      simp

/-- A subtree none of whose reachable url-marked nodes is targeted is
returned untouched by remove_node, with count zero and no excision
flag. -/
theorem untouched_of_urlFree (targets : List String) :
    ∀ v, (∀ u ∈ urls v, u ∉ targets) →
      removeNode targets v = (0, false, v) := by
  refine jvalue_induction _ (by simp) (by simp) (by simp) (by simp) ?_ ?_
  · intro elems ih h
    rw [removeNode_arr, untouchedElems targets elems (fun v hv => ih v hv) ?_]
    intro u hu
    exact h u (by simpa using hu)
  · intro fields ih h
    have hmatch : matchedFields targets fields = false := by
      rw [matchedFields_eq_any]
      rcases selfUrl_cases fields with hs | ⟨u, hs⟩
      · simp [hs]
      · have := h u (by simp [hs])
        simp [hs, this]
    rw [removeNode_obj, if_neg (by simp [hmatch])]
    rw [untouchedFields targets fields (fun kv hkv => ih kv hkv) ?_]
    intro u hu
    exact h u (by simp [hu])

theorem lookupField_eq_none (fs : List (String × JValue)) (k : String)
    (h : k ∉ fs.map Prod.fst) : lookupField fs k = none := by
  induction fs with
  | nil => rfl
  | cons head rest ih =>
    obtain ⟨k', v⟩ := head
    simp only [List.map_cons, List.mem_cons, not_or] at h
    rw [lookupField, if_neg (fun he => h.1 he.symm)]
    exact ih h.2

/-- Keys of the rewritten object all come from the original object. -/
theorem removeFields_keys_sub (targets : List String) (fs : List (String × JValue)) :
    ∀ k ∈ (removeFields targets fs).2.map Prod.fst, k ∈ fs.map Prod.fst := by
  induction fs with
  | nil => simp
  | cons head rest ih =>
    obtain ⟨k', v⟩ := head
    intro k hk
    by_cases hc : k' = childrenKey
    · subst hc
      by_cases harr : ∃ elems, v = .arr elems
      · obtain ⟨elems, rfl⟩ := harr
        rw [removeFields_cons_children_arr] at hk
        simp only [List.map_cons, List.mem_cons] at hk ⊢
        rcases hk with hk | hk
        · exact Or.inl hk
        · exact Or.inr (ih k hk)
      · rw [removeFields_cons_children_other _ _ _ (fun e he => harr ⟨e, he⟩)] at hk
        simp only [List.map_cons, List.mem_cons] at hk ⊢
        rcases hk with hk | hk
        · exact Or.inl hk
        · exact Or.inr (ih k hk)
    · rw [removeFields_cons_other _ _ _ _ hc] at hk
      by_cases hflag : (removeNode targets v).2.1
      · rw [if_pos hflag] at hk
        simp only [List.map_cons, List.mem_cons]
        exact Or.inr (ih k hk)
      · rw [if_neg hflag] at hk
        simp only [List.map_cons, List.mem_cons] at hk ⊢
        rcases hk with hk | hk
        · exact Or.inl hk
        · exact Or.inr (ih k hk)

theorem nodupB_cons (k : String) (ks : List String) (h : nodupB (k :: ks) = true) :
    k ∉ ks ∧ nodupB ks = true := by
  rw [nodupB] at h
  have h' := Bool.and_eq_true _ _ |>.mp h
  refine ⟨?_, h'.2⟩
  have := h'.1
  simp at this
  exact this

/-- remove_node turns strings into the same strings and nothing else
into a string. -/
theorem removeNode_str_iff (targets : List String) (v : JValue) (s : String) :
    (removeNode targets v).2.2 = .str s ↔ v = .str s := by
  cases v
  case obj fields =>
    rw [removeNode_obj]
    by_cases h : matchedFields targets fields <;> simp [h]
  all_goals simp

/-- With unique keys, a lookup after the removal pass finds exactly the
processed value of the original binding, or nothing when that binding
was excised; the children key is the one key processed differently. -/
theorem lookupField_removeFields (targets : List String) (fs : List (String × JValue))
    (k : String) (hk : k ≠ childrenKey) (hnd : nodupB (fs.map Prod.fst) = true) :
    lookupField (removeFields targets fs).2 k =
      match lookupField fs k with
      | none => none
      | some v =>
        if (removeNode targets v).2.1 then none else some (removeNode targets v).2.2 := by
  induction fs with
  | nil => simp [lookupField]
  | cons head rest ih =>
    obtain ⟨k', v⟩ := head
    simp only [List.map_cons] at hnd
    obtain ⟨hknotin, hndrest⟩ := nodupB_cons _ _ hnd
    by_cases hc : k' = childrenKey
    · subst hc
      have hkk : ¬(childrenKey = k) := fun he => hk he.symm
      by_cases harr : ∃ elems, v = .arr elems
      · obtain ⟨elems, rfl⟩ := harr
        rw [removeFields_cons_children_arr]
        simp only [lookupField, if_neg hkk]
        exact ih hndrest
      · rw [removeFields_cons_children_other _ _ _ (fun e he => harr ⟨e, he⟩)]
        simp only [lookupField, if_neg hkk]
        exact ih hndrest
    · rw [removeFields_cons_other _ _ _ _ hc]
      by_cases hke : k' = k
      · subst hke
        by_cases hflag : (removeNode targets v).2.1
        · rw [if_pos hflag]
          simp only [lookupField, if_pos rfl, if_true, hflag, reduceIte]
          refine lookupField_eq_none _ _ ?_
          intro hmem
          exact hknotin (removeFields_keys_sub targets rest k' hmem)
        · rw [if_neg hflag]
          simp only [lookupField, if_pos rfl, if_true]
          rw [if_neg hflag]
      · by_cases hflag : (removeNode targets v).2.1
        · rw [if_pos hflag]
          simp only [lookupField, if_neg hke]
          exact ih hndrest
        · rw [if_neg hflag]
          simp only [lookupField, if_neg hke]
          exact ih hndrest

/-- String-valued lookups survive the removal pass unchanged when keys
are unique. -/
theorem lookupField_str_stable (targets : List String) (fs : List (String × JValue))
    (k : String) (hk : k ≠ childrenKey) (hnd : nodupB (fs.map Prod.fst) = true)
    (s : String) :
    lookupField (removeFields targets fs).2 k = some (.str s) ↔
      lookupField fs k = some (.str s) := by
  rw [lookupField_removeFields targets fs k hk hnd]
  cases ho : lookupField fs k with
  | none => simp
  | some v =>
    simp only
    by_cases hflag : (removeNode targets v).2.1
    · rw [if_pos hflag]
      constructor
      · intro h; cases h
      · intro h
        injection h with h'
        subst h'
        rw [removeNode_str] at hflag
        cases hflag
    · rw [if_neg hflag]
      constructor
      · intro h
        injection h with h'
        rw [Option.some_inj]
        exact (removeNode_str_iff targets v s).mp h'
      · intro h
        injection h with h'
        subst h'
        rw [removeNode_str]

/-- selfUrl depends on an object only through which strings its type and
url keys look up to. -/
theorem selfUrl_congr (fs1 fs2 : List (String × JValue))
    (ht : ∀ s, lookupField fs1 typeKey = some (.str s) ↔
      lookupField fs2 typeKey = some (.str s))
    (hu : ∀ s, lookupField fs1 urlKey = some (.str s) ↔
      lookupField fs2 urlKey = some (.str s)) :
    selfUrl fs1 = selfUrl fs2 := by
  have key : ∀ (a b : Option JValue),
      (∀ s, a = some (.str s) ↔ b = some (.str s)) →
      (match a with
       | some (.str s) => some s
       | _ => (none : Option String)) =
      (match b with
       | some (.str s) => some s
       | _ => (none : Option String)) := by
    intro a b hab
    cases a with
    | none =>
      cases b with
      | none => rfl
      | some v2 =>
        cases v2 <;> try rfl
        rename_i s
        have h2 := (hab s).mpr rfl
        cases h2
    | some v1 =>
      cases v1 <;>
        (try
          (cases b with
           | none => rfl
           | some v2 =>
             cases v2 <;> try rfl
             rename_i s
             have h2 := (hab s).mpr rfl
             simp at h2))
      rename_i s
      have h2 := (hab s).mp rfl
      rw [h2]
  have expand : ∀ (gs : List (String × JValue)), selfUrl gs =
      (match (match lookupField gs typeKey with
              | some (.str s) => some s
              | _ => (none : Option String)) with
       | some t =>
         if t = urlTag then
           (match (match lookupField gs urlKey with
                   | some (.str s) => some s
                   | _ => (none : Option String)) with
            | some u => [u]
            | none => [])
         else []
       | none => []) := by
    intro gs
    unfold selfUrl
    cases lookupField gs typeKey with
    | none => rfl
    | some v =>
      cases v <;> try rfl
      rename_i t
      by_cases htag : t = urlTag <;> simp only [htag, reduceIte]
      cases lookupField gs urlKey with
      | none => rfl
      | some w => cases w <;> rfl
  rw [expand fs1, expand fs2, key _ _ ht, key _ _ hu]

/-- With unique keys the removal pass leaves a node's own leaf identity
alone: the rewritten object has the same selfUrl. -/
theorem selfUrl_removeFields (targets : List String) (fs : List (String × JValue))
    (hnd : nodupB (fs.map Prod.fst) = true) :
    selfUrl (removeFields targets fs).2 = selfUrl fs := by
  refine selfUrl_congr _ _ ?_ ?_
  · exact fun s => lookupField_str_stable targets fs typeKey (by decide) hnd s
  · exact fun s => lookupField_str_stable targets fs urlKey (by decide) hnd s

/-- With unique keys the removal pass leaves the match test alone. -/
theorem matchedFields_removeFields (targets : List String) (fs : List (String × JValue))
    (hnd : nodupB (fs.map Prod.fst) = true) :
    matchedFields targets (removeFields targets fs).2 = matchedFields targets fs := by
  rw [matchedFields_eq_any, matchedFields_eq_any, selfUrl_removeFields targets fs hnd]

/-- The statement of the main removal lemma at a single node: the count
is the number of targeted reachable urls, an excised node carries only
targeted urls, and a kept node carries exactly the untargeted urls. -/
def NodeSpec (targets : List String) (v : JValue) : Prop :=
  (removeNode targets v).1 = ((urls v).filter (fun u => targets.contains u)).length
  ∧ ((removeNode targets v).2.1 = true →
      (urls v).filter (fun u => !(targets.contains u)) = [])
  ∧ ((removeNode targets v).2.1 = false →
      urls (removeNode targets v).2.2 = (urls v).filter (fun u => !(targets.contains u)))

/-- Array level of the main removal lemma. -/
theorem removeElems_spec (targets : List String) (l : List JValue)
    (ih : ∀ v ∈ l, nodupKeys v = true → wfLeaves v = true → NodeSpec targets v)
    (hnd : nodupKeysElems l = true) (hwf : wfLeavesElems l = true) :
    (removeElems targets l).1 = ((urlsElems l).filter (fun u => targets.contains u)).length
    ∧ urlsElems (removeElems targets l).2 =
        (urlsElems l).filter (fun u => !(targets.contains u)) := by
  induction l with
  | nil => simp
  | cons v rest ihl =>
    rw [nodupKeysElems] at hnd
    rw [wfLeavesElems] at hwf
    obtain ⟨hndv, hndrest⟩ := Bool.and_eq_true _ _ |>.mp hnd
    obtain ⟨hwfv, hwfrest⟩ := Bool.and_eq_true _ _ |>.mp hwf
    obtain ⟨hv1, hv2, hv3⟩ := ih v (List.mem_cons_self _ _) hndv hwfv
    obtain ⟨ht1, ht2⟩ := ihl (fun w hw => ih w (List.mem_cons_of_mem _ hw)) hndrest hwfrest
    rw [removeElems_cons]
    constructor
    · simp only [urlsElems_cons, List.filter_append, List.length_append, hv1, ht1]
    · by_cases hflag : (removeNode targets v).2.1
      · rw [if_pos hflag]
        simp only [urlsElems_cons, List.filter_append, hv2 hflag, ht2, List.nil_append]
      · rw [if_neg hflag]
        simp only [urlsElems_cons, List.filter_append,
          hv3 (Bool.not_eq_true _ ▸ Bool.of_not_eq_true hflag), ht2]

/-- Field level of the main removal lemma. -/
theorem removeFields_spec (targets : List String) (fs : List (String × JValue))
    (ih : ∀ kv ∈ fs, nodupKeys kv.2 = true → wfLeaves kv.2 = true → NodeSpec targets kv.2)
    (hnd : nodupKeysFields fs = true) (hwf : wfLeavesFields fs = true) :
    (removeFields targets fs).1 = ((urlsFields fs).filter (fun u => targets.contains u)).length
    ∧ urlsFields (removeFields targets fs).2 =
        (urlsFields fs).filter (fun u => !(targets.contains u)) := by
  induction fs with
  | nil => simp
  | cons head rest ihl =>
    obtain ⟨k, v⟩ := head
    rw [nodupKeysFields] at hnd
    rw [wfLeavesFields] at hwf
    obtain ⟨hndv, hndrest⟩ := Bool.and_eq_true _ _ |>.mp hnd
    obtain ⟨hwfv, hwfrest⟩ := Bool.and_eq_true _ _ |>.mp hwf
    obtain ⟨ht1, ht2⟩ := ihl (fun kv hkv => ih kv (List.mem_cons_of_mem _ hkv)) hndrest hwfrest
    by_cases hc : k = childrenKey
    · subst hc
      by_cases harr : ∃ elems, v = .arr elems
      · obtain ⟨elems, rfl⟩ := harr
        obtain ⟨hv1, hv2, hv3⟩ := ih (childrenKey, .arr elems) (List.mem_cons_self _ _) hndv hwfv
        have hv3' := hv3 (by simp)
        simp only [removeNode_arr, urls_arr] at hv1 hv3'
        rw [removeFields_cons_children_arr, urlsFields_cons_children_arr,
          urlsFields_cons_children_arr]
        constructor
        · simp only [List.filter_append, List.length_append, hv1, ht1]
        · simp only [List.filter_append, hv3', ht2]
      · have hne : ∀ elems, v ≠ .arr elems := fun e he => harr ⟨e, he⟩
        rw [removeFields_cons_children_other _ _ _ hne,
          urlsFields_cons_children_other _ _ hne,
          urlsFields_cons_children_other _ _ hne]
        exact ⟨ht1, ht2⟩
    · obtain ⟨hv1, hv2, hv3⟩ := ih (k, v) (List.mem_cons_self _ _) hndv hwfv
      rw [removeFields_cons_other _ _ _ _ hc, urlsFields_cons_other _ _ _ hc]
      constructor
      · simp only [List.filter_append, List.length_append, hv1, ht1]
      · by_cases hflag : (removeNode targets v).2.1
        · rw [if_pos hflag]
          simp only [List.filter_append, hv2 hflag, ht2, List.nil_append]
        · rw [if_neg hflag, urlsFields_cons_other _ _ _ hc]
          simp only [List.filter_append,
            hv3 (Bool.not_eq_true _ ▸ Bool.of_not_eq_true hflag), ht2]

/-- Main removal lemma: on trees with unique object keys and terminal
leaves, remove_node's count is the number of targeted reachable urls, an
excised subtree carries only targeted urls, and a kept subtree carries
exactly the untargeted urls in their original order. -/
theorem removeNode_spec (targets : List String) :
    ∀ v, nodupKeys v = true → wfLeaves v = true → NodeSpec targets v := by
  refine jvalue_induction _ ?_ ?_ ?_ ?_ ?_ ?_
  · intro _ _; refine ⟨by simp, by simp, by simp⟩
  · intro b _ _; refine ⟨by simp, by simp, by simp⟩
  · intro n _ _; refine ⟨by simp, by simp, by simp⟩
  · intro s _ _; refine ⟨by simp, by simp, by simp⟩
  · intro elems ih hnd hwf
    rw [nodupKeys] at hnd
    rw [wfLeaves] at hwf
    obtain ⟨h1, h2⟩ := removeElems_spec targets elems (fun v hv => ih v hv) hnd hwf
    exact ⟨by simpa using h1, by simp, by intro _; simpa using h2⟩
  · intro fields ih hnd hwf
    rw [nodupKeys] at hnd
    rw [wfLeaves] at hwf
    obtain ⟨hndk, hndf⟩ := Bool.and_eq_true _ _ |>.mp hnd
    obtain ⟨hwfhead, hwff⟩ := Bool.and_eq_true _ _ |>.mp hwf
    by_cases hmatch : matchedFields targets fields
    · obtain ⟨u, hsu, hcu⟩ : ∃ u, selfUrl fields = [u] ∧ targets.contains u = true := by
        rw [matchedFields_eq_any] at hmatch
        rcases selfUrl_cases fields with hs | ⟨u, hs⟩
        · rw [hs] at hmatch; simp at hmatch
        · rw [hs] at hmatch
          simp only [List.any_cons, List.any_nil, Bool.or_false] at hmatch
          exact ⟨u, hs, hmatch⟩
      have hmem : u ∈ targets := by simpa using hcu
      have hfempty : urlsFields fields = [] := by
        rcases Bool.or_eq_true _ _ |>.mp hwfhead with h | h
        · rw [hsu] at h; simp at h
        · simpa using h
      have hurls : urls (.obj fields) = [u] := by
        simp [hsu, hfempty]
      refine ⟨?_, ?_, ?_⟩
      · rw [removeNode_obj, if_pos hmatch, hurls]
        simp [hmem]
      · intro _
        rw [hurls]
        simp [hmem]
      · intro hflag
        rw [removeNode_flag] at hflag
        simp only [matchedRoot] at hflag
        rw [hmatch] at hflag
        cases hflag
    · have hmatch' : matchedFields targets fields = false := Bool.of_not_eq_true hmatch
      rcases selfUrl_cases fields with hsu | ⟨u, hsu⟩
      · obtain ⟨h1, h2⟩ := removeFields_spec targets fields (fun kv hkv => ih kv hkv) hndf hwff
        refine ⟨?_, ?_, ?_⟩
        · rw [removeNode_obj, if_neg (by simp [hmatch'])]
          simp [hsu, h1]
        · intro hflag
          rw [removeNode_flag] at hflag
          simp [matchedRoot, hmatch'] at hflag
        · intro _
          rw [removeNode_obj, if_neg (by simp [hmatch'])]
          simp [urls_obj, selfUrl_removeFields targets fields hndk, h2, hsu]
      · have hfempty : urlsFields fields = [] := by
          rcases Bool.or_eq_true _ _ |>.mp hwfhead with h | h
          · rw [hsu] at h; simp at h
          · simpa using h
        have hcu : targets.contains u = false := by
          rw [matchedFields_eq_any, hsu] at hmatch
          simp only [List.any_cons, List.any_nil, Bool.or_false] at hmatch
          exact Bool.of_not_eq_true hmatch
        have hnotmem : u ∉ targets := by simpa using hcu
        have hrf : removeFields targets fields = (0, fields) := by
          refine untouchedFields targets fields
            (fun kv _ h => untouched_of_urlFree targets kv.2 h) ?_
          rw [hfempty]
          intro u' hu'
          cases hu'
        have hurls : urls (.obj fields) = [u] := by
          simp [hsu, hfempty]
        refine ⟨?_, ?_, ?_⟩
        · rw [removeNode_obj, if_neg (by simp [hmatch']), hrf, hurls]
          simp [hnotmem]
        · intro hflag
          rw [removeNode_flag] at hflag
          simp [matchedRoot, hmatch'] at hflag
        · intro _
          rw [removeNode_obj, if_neg (by simp [hmatch']), hrf, hurls]
          simp [hnotmem, hsu, hfempty]

/-- Array level of the followup lemma: after a pass, surviving elements
carry no targeted urls. -/
theorem removeElems_resultFree (targets : List String) (l : List JValue)
    (ih : ∀ v ∈ l, nodupKeys v = true → (removeNode targets v).2.1 = false →
      ∀ u ∈ urls (removeNode targets v).2.2, u ∉ targets)
    (hnd : nodupKeysElems l = true) :
    ∀ u ∈ urlsElems (removeElems targets l).2, u ∉ targets := by
  induction l with
  | nil => simp
  | cons v rest ihl =>
    rw [nodupKeysElems] at hnd
    obtain ⟨hndv, hndrest⟩ := Bool.and_eq_true _ _ |>.mp hnd
    have htail := ihl (fun w hw => ih w (List.mem_cons_of_mem _ hw)) hndrest
    rw [removeElems_cons]
    by_cases hflag : (removeNode targets v).2.1
    · rw [if_pos hflag]
      exact htail
    · rw [if_neg hflag]
      intro u hu
      simp only [urlsElems_cons, List.mem_append] at hu
      rcases hu with hu | hu
      · exact ih v (List.mem_cons_self _ _) hndv (Bool.of_not_eq_true hflag) u hu
      · exact htail u hu

/-- Field level of the followup lemma. -/
theorem removeFields_resultFree (targets : List String) (fs : List (String × JValue))
    (ih : ∀ kv ∈ fs, nodupKeys kv.2 = true → (removeNode targets kv.2).2.1 = false →
      ∀ u ∈ urls (removeNode targets kv.2).2.2, u ∉ targets)
    (hnd : nodupKeysFields fs = true) :
    ∀ u ∈ urlsFields (removeFields targets fs).2, u ∉ targets := by
  induction fs with
  | nil => simp
  | cons head rest ihl =>
    obtain ⟨k, v⟩ := head
    rw [nodupKeysFields] at hnd
    obtain ⟨hndv, hndrest⟩ := Bool.and_eq_true _ _ |>.mp hnd
    have htail := ihl (fun kv hkv => ih kv (List.mem_cons_of_mem _ hkv)) hndrest
    by_cases hc : k = childrenKey
    · subst hc
      by_cases harr : ∃ elems, v = .arr elems
      · obtain ⟨elems, rfl⟩ := harr
        have helems : ∀ u ∈ urlsElems (removeElems targets elems).2, u ∉ targets := by
          have h := ih (childrenKey, .arr elems) (List.mem_cons_self _ _) hndv (by simp)
          simpa using h
        rw [removeFields_cons_children_arr, urlsFields_cons_children_arr]
        intro u hu
        rcases List.mem_append.mp hu with hu | hu
        · exact helems u hu
        · exact htail u hu
      · have hne : ∀ elems, v ≠ .arr elems := fun e he => harr ⟨e, he⟩
        rw [removeFields_cons_children_other _ _ _ hne,
          urlsFields_cons_children_other _ _ hne]
        exact htail
    · rw [removeFields_cons_other _ _ _ _ hc]
      by_cases hflag : (removeNode targets v).2.1
      · rw [if_pos hflag]
        exact htail
      · rw [if_neg hflag, urlsFields_cons_other _ _ _ hc]
        intro u hu
        rcases List.mem_append.mp hu with hu | hu
        · exact ih (k, v) (List.mem_cons_self _ _) hndv (Bool.of_not_eq_true hflag) u hu
        · exact htail u hu

/-- After one removal pass, a kept subtree reaches no targeted url at
all: the pass removes every match it can reach in a single walk. -/
theorem removeNode_resultFree (targets : List String) :
    ∀ v, nodupKeys v = true → (removeNode targets v).2.1 = false →
      ∀ u ∈ urls (removeNode targets v).2.2, u ∉ targets := by
  refine jvalue_induction _ ?_ ?_ ?_ ?_ ?_ ?_
  · intro _ _; simp
  · intro b _ _; simp
  · intro n _ _; simp
  · intro s _ _; simp
  · intro elems ih hnd _
    rw [nodupKeys] at hnd
    rw [removeNode_arr]
    simp only [urls_arr]
    exact removeElems_resultFree targets elems (fun v hv => ih v hv) hnd
  · intro fields ih hnd hflag
    rw [nodupKeys] at hnd
    obtain ⟨hndk, hndf⟩ := Bool.and_eq_true _ _ |>.mp hnd
    rw [removeNode_flag] at hflag
    simp only [matchedRoot] at hflag
    rw [removeNode_obj, if_neg (by simp [hflag])]
    simp only [urls_obj]
    intro u hu
    rcases List.mem_append.mp hu with hu | hu
    · rw [selfUrl_removeFields targets fields hndk] at hu
      rw [matchedFields_eq_any] at hflag
      rcases selfUrl_cases fields with hs | ⟨w, hs⟩
      · rw [hs] at hu; cases hu
      · rw [hs] at hu
        rw [hs] at hflag
        simp only [List.any_cons, List.any_nil, Bool.or_false] at hflag
        rcases List.mem_singleton.mp hu with rfl
        simpa using hflag
    · exact removeFields_resultFree targets fields (fun kv hkv => ih kv hkv) hndf u hu

/-- C3 (amended): on trees with unique object keys, whose root is not a
targeted leaf, and in which no url-marked leaf carries url-marked nodes
beneath it, remove removes a leaf if and only if its url is in the
target set — the surviving reachable urls are exactly the untargeted
ones, in order — and removed_count equals the number of reachable
leaves whose url is in the target set. -/
theorem c3_remove_targets_iff (targets : List String) (tree : JValue)
    (hnd : nodupKeys tree = true) (hwf : wfLeaves tree = true)
    (hroot : matchedRoot targets tree = false) :
    urls (removeTargets targets tree).2 =
      (urls tree).filter (fun u => !(targets.contains u))
    ∧ (removeTargets targets tree).1 =
        ((urls tree).filter (fun u => targets.contains u)).length := by
  obtain ⟨h1, h2, h3⟩ := removeNode_spec targets tree hnd hwf
  have hflag : (removeNode targets tree).2.1 = false := by
    rw [removeNode_flag]; exact hroot
  exact ⟨h3 hflag, h1⟩

/-- C3 counterexample: on the tree whose targeted leaf carries a further
leaf beneath it, remove excises the untargeted inner leaf as well, so
removal is not restricted to leaves whose url is in the target set. -/
theorem c3_remove_counterexample :
    urls (removeTargets [exUrlA] exNested).2 ≠
      (urls exNested).filter (fun u => !(([exUrlA] : List String).contains u)) := by
  decide

/-- C3 witness: the amended theorem applied to a conformant two-leaf
tree with one targeted url. -/
theorem c3_remove_witness :
    urls (removeTargets [exUrlA] exTree).2 = [exUrlB]
    ∧ (removeTargets [exUrlA] exTree).1 = 1 := by
  obtain ⟨h1, h2⟩ :=
    c3_remove_targets_iff [exUrlA] exTree (by decide) (by decide) (by decide)
  refine ⟨?_, ?_⟩
  · rw [h1]; decide
  · rw [h2]; decide

/-- C4 (amended): unless the root itself is a url-marked leaf whose url
is in the target set, running remove a second time with the same target
set on the tree the first run produced removes nothing and leaves the
tree unchanged. -/
theorem c4_remove_idempotent (targets : List String) (tree : JValue)
    (hnd : nodupKeys tree = true) (hroot : matchedRoot targets tree = false) :
    removeTargets targets (removeTargets targets tree).2 =
      (0, (removeTargets targets tree).2) := by
  have hflag : (removeNode targets tree).2.1 = false := by
    rw [removeNode_flag]; exact hroot
  have hfree := removeNode_resultFree targets tree hnd hflag
  have h2 := untouched_of_urlFree targets (removeNode targets tree).2.2 hfree
  simp [removeTargets, h2]

/-- C4 counterexample: when the root is itself a targeted leaf, every
run reports removed_count one and never reaches zero, because the root
cannot be excised by a parent. -/
theorem c4_remove_counterexample :
    (removeTargets [exUrlA] (removeTargets [exUrlA] exLeafA).2).1 ≠ 0 := by
  decide

/-- C4 witness: the amended theorem applied to a conformant two-leaf
tree with one targeted url. -/
theorem c4_remove_witness :
    removeTargets [exUrlA] (removeTargets [exUrlA] exTree).2 =
      (0, (removeTargets [exUrlA] exTree).2) :=
  c4_remove_idempotent [exUrlA] exTree (by decide) (by decide)

/-- C7: at every level, the compacting loop of remove_node yields
exactly the recursively processed survivors in their original relative
order — the output sequence is an order-preserving filter of the
processed input, with no holes — and the surviving keys of an object
keep their relative order as well. -/
theorem c7_remove_preserves_order (targets : List String) (l : List JValue)
    (fs : List (String × JValue)) :
    (removeElems targets l).2 =
      l.filterMap (fun v =>
        if (removeNode targets v).2.1 then none else some (removeNode targets v).2.2)
    ∧ (removeElems targets l).2.Sublist (l.map fun v => (removeNode targets v).2.2)
    ∧ ((removeFields targets fs).2.map Prod.fst).Sublist (fs.map Prod.fst) := by
  refine ⟨?_, ?_, ?_⟩
  · induction l with
    | nil => simp
    | cons v rest ih =>
      rw [removeElems_cons]
      by_cases h : (removeNode targets v).2.1 <;>
        simp [h, ih, List.filterMap_cons]
  · induction l with
    | nil => simp
    | cons v rest ih =>
      rw [removeElems_cons]
      by_cases h : (removeNode targets v).2.1
      · rw [if_pos h]
        simp only [List.map_cons]
        exact ih.cons _
      · rw [if_neg h]
        simp only [List.map_cons]
        exact ih.cons₂ _
  · induction fs with
    | nil => simp
    | cons head rest ih =>
      obtain ⟨k, v⟩ := head
      by_cases hc : k = childrenKey
      · subst hc
        by_cases harr : ∃ elems, v = .arr elems
        · obtain ⟨elems, rfl⟩ := harr
          rw [removeFields_cons_children_arr]
          simp only [List.map_cons]
          exact ih.cons₂ _
        · rw [removeFields_cons_children_other _ _ _ (fun e he => harr ⟨e, he⟩)]
          simp only [List.map_cons]
          exact ih.cons₂ _
      · rw [removeFields_cons_other _ _ _ _ hc]
        by_cases h : (removeNode targets v).2.1
        · rw [if_pos h]
          simp only [List.map_cons]
          exact ih.cons _
        · rw [if_neg h]
          simp only [List.map_cons]
          exact ih.cons₂ _

/-- Array level of the extraction equation. -/
theorem collectElems_eq (l : List JValue)
    (ih : ∀ v ∈ l, collectNode v = (nodesOf v).filterMap leafValue) :
    collectElems l = (nodesElems l).filterMap leafValue := by
  induction l with
  | nil => simp [collectElems, nodesElems]
  | cons v rest ihl =>
    rw [collectElems, nodesElems]
    rw [List.filterMap_append, ih v (List.mem_cons_self _ _),
      ihl (fun w hw => ih w (List.mem_cons_of_mem _ hw))]

theorem collectChildren_cons_children_arr (elems : List JValue)
    (rest : List (String × JValue)) :
    collectChildren ((childrenKey, .arr elems) :: rest) = collectElems elems := by
  rw [collectChildren.eq_def]
  simp

theorem collectChildren_cons_children_other (v : JValue) (rest : List (String × JValue))
    (hv : ∀ elems, v ≠ .arr elems) :
    collectChildren ((childrenKey, v) :: rest) = [] := by
  rw [collectChildren.eq_def]
  cases v
  case arr elems => exact absurd rfl (hv elems)
  all_goals simp

theorem collectChildren_cons_other (k : String) (v : JValue) (rest : List (String × JValue))
    (hk : k ≠ childrenKey) :
    collectChildren ((k, v) :: rest) = collectChildren rest := by
  rw [collectChildren.eq_def]
  simp [hk]

theorem nodesChildren_cons_children_arr (elems : List JValue)
    (rest : List (String × JValue)) :
    nodesChildren ((childrenKey, .arr elems) :: rest) = nodesElems elems := by
  rw [nodesChildren.eq_def]
  simp

theorem nodesChildren_cons_children_other (v : JValue) (rest : List (String × JValue))
    (hv : ∀ elems, v ≠ .arr elems) :
    nodesChildren ((childrenKey, v) :: rest) = [] := by
  rw [nodesChildren.eq_def]
  cases v
  case arr elems => exact absurd rfl (hv elems)
  all_goals simp

theorem nodesChildren_cons_other (k : String) (v : JValue) (rest : List (String × JValue))
    (hk : k ≠ childrenKey) :
    nodesChildren ((k, v) :: rest) = nodesChildren rest := by
  rw [nodesChildren.eq_def]
  simp [hk]

/-- Children-phase level of the extraction equation. -/
theorem collectChildren_eq (fs : List (String × JValue))
    (ih : ∀ kv ∈ fs, collectNode kv.2 = (nodesOf kv.2).filterMap leafValue) :
    collectChildren fs = (nodesChildren fs).filterMap leafValue := by
  induction fs with
  | nil => simp [collectChildren, nodesChildren]
  | cons head rest ihl =>
    obtain ⟨k, v⟩ := head
    by_cases hc : k = childrenKey
    · subst hc
      by_cases harr : ∃ elems, v = .arr elems
      · obtain ⟨elems, rfl⟩ := harr
        rw [collectChildren_cons_children_arr, nodesChildren_cons_children_arr]
        have h := ih (childrenKey, .arr elems) (List.mem_cons_self _ _)
        rw [collectNode, nodesOf] at h
        simp only [List.filterMap_cons] at h
        rw [show leafValue (.arr elems) = none from rfl] at h
        exact h
      · have hne : ∀ elems, v ≠ .arr elems := fun e he => harr ⟨e, he⟩
        rw [collectChildren_cons_children_other _ _ hne,
          nodesChildren_cons_children_other _ _ hne]
        rfl
    · rw [collectChildren_cons_other _ _ _ hc, nodesChildren_cons_other _ _ _ hc]
      exact ihl (fun kv hkv => ih kv (List.mem_cons_of_mem _ hkv))

/-- Field-loop level of the extraction equation. -/
theorem collectFields_eq (fs : List (String × JValue))
    (ih : ∀ kv ∈ fs, collectNode kv.2 = (nodesOf kv.2).filterMap leafValue) :
    collectFields fs = (nodesFields fs).filterMap leafValue := by
  induction fs with
  | nil => simp [collectFields, nodesFields]
  | cons head rest ihl =>
    obtain ⟨k, v⟩ := head
    rw [collectFields, nodesFields, List.filterMap_append]
    by_cases hc : k = childrenKey
    · rw [if_pos hc, if_pos hc]
      simp only [List.filterMap_nil]
      rw [ihl (fun kv hkv => ih kv (List.mem_cons_of_mem _ hkv))]
    · rw [if_neg hc, if_neg hc, ih (k, v) (List.mem_cons_self _ _),
        ihl (fun kv hkv => ih kv (List.mem_cons_of_mem _ hkv))]

/-- A node that is not url-marked contributes no bookmark. -/
theorem leafValue_none_of_unmarked (v : JValue) (h : isUrlMarked v = false) :
    leafValue v = none := by
  cases v <;> try rfl
  case obj fields =>
    rw [isUrlMarked] at h
    rw [leafValue, leafOfFields]
    cases ho : lookupField fields typeKey with
    | none => rfl
    | some w =>
      cases w <;> try rfl
      rename_i t
      rw [ho] at h
      simp only at h
      have ht : ¬ t = urlTag := by simpa using h
      simp only
      rw [if_neg ht]

/-- C5 (amended): extraction emits exactly one bookmark per visited node
whose discriminator marks it as a url entry and whose name and url
fields are strings — the output is the leaf-projection of the pre-order
enumeration that visits each node once, children before other sibling
fields — and emits nothing when no visited node is url-marked. -/
theorem c5_extract_preorder (v : JValue) :
    collectNode v = (nodesOf v).filterMap leafValue
    ∧ ((∀ n ∈ nodesOf v, isUrlMarked n = false) → collectNode v = []) := by
  have main : ∀ w, collectNode w = (nodesOf w).filterMap leafValue := by
    refine jvalue_induction _ rfl (fun b => rfl) (fun n => rfl) (fun s => rfl) ?_ ?_
    · intro elems ih
      rw [collectNode, nodesOf]
      simp only [List.filterMap_cons]
      rw [show leafValue (.arr elems) = none from rfl]
      exact collectElems_eq elems ih
    · intro fields ih
      rw [collectNode, nodesOf]
      simp only [List.filterMap_cons, List.filterMap_append]
      rw [show leafValue (.obj fields) = leafOfFields fields from rfl]
      rw [collectChildren_eq fields ih, collectFields_eq fields ih]
      cases leafOfFields fields <;> simp
  refine ⟨main v, ?_⟩
  intro h
  rw [main v]
  rw [List.filterMap_eq_nil_iff]
  intro n hn
  exact leafValue_none_of_unmarked n (h n hn)

/-- C5 counterexample: a node marked as a url entry but lacking name and
url fields is visited yet yields no bookmark, so extraction does not
emit one leaf per url-marked node. -/
theorem c5_extract_counterexample :
    (collectNode exBareUrlNode).length ≠
      ((nodesOf exBareUrlNode).filter (fun n => isUrlMarked n)).length := by
  decide

/-- C5 witness: the amended theorem applied to a two-leaf tree and its
empty-output clause applied to a tree without url-marked nodes. -/
theorem c5_extract_witness :
    collectNode exNoUrls = []
    ∧ collectNode exTree = (nodesOf exTree).filterMap leafValue := by
  refine ⟨(c5_extract_preorder exNoUrls).2 (by decide), (c5_extract_preorder exTree).1⟩

/-- C1 at the failing input: check_single classifies only status 404,
so a request completing with 401 or 403 produces no failure record at
all, while the specification's classification assigns Unauthorized to
both statuses. -/
theorem c1_unauthorized_not_recorded :
    checkSingle exBookmark (.success 401) = none
    ∧ checkSingle exBookmark (.success 403) = none
    ∧ specClassify (.success 401) = some .unauthorized
    ∧ specClassify (.success 403) = some .unauthorized := by
  decide

/-- C2: the failure classification is the closed three-kind set, and a
transport-level failure yields exactly one record whose reason is the
diagnostic text of the underlying transport error, classified as
Connection. -/
theorem c2_failure_kinds (b : Bookmark) (message : String) :
    (∀ k : FailureKind, k = .notFound ∨ k = .unauthorized ∨ k = .connection)
    ∧ checkSingle b (.error message) =
        some { bookmark := b, reason := requestFailedPre ++ message }
    ∧ specClassify (.error message) = some .connection := by
  refine ⟨?_, rfl, rfl⟩
  intro k
  cases k
  · exact Or.inl rfl
  · exact Or.inr (Or.inl rfl)
  · exact Or.inr (Or.inr rfl)

/-- C6: a request completing with HTTP 404 yields exactly one failure
record with reason exactly "HTTP 404 Not Found", classified NotFound. -/
theorem c6_notfound_classification (b : Bookmark) :
    checkSingle b (.success 404) = some { bookmark := b, reason := http404Reason }
    ∧ specClassify (.success 404) = some .notFound := by
  constructor
  · show (if 404 = 404 then some (fromStatus b 404) else none) = _
    rw [if_pos rfl]
    rw [show fromStatus b 404 = { bookmark := b, reason := http404Reason } from by
      rw [fromStatus]
      rfl]
  · rfl

/-- C8: the empty leaf list returns the empty failure sequence before
any network client or progress reporter is constructed. -/
theorem c8_empty_input_fast_path (build : Except String (Bookmark → FetchResult)) :
    checkBookmarks build [] =
      (.ok [], { clientBuilt := false, reporterBuilt := false }) := rfl

/-- C9: updating a worker slot with an out-of-range index is a complete
no-op, and an in-range index overwrites exactly that slot, leaving every
other slot and the overall counter unchanged. -/
theorem c9_worker_slot_update (st : ProgressState) (idx : Nat) (msg : String) :
    (st.workers.length ≤ idx → workerStart st idx msg = st)
    ∧ (idx < st.workers.length →
        (workerStart st idx msg).workers.length = st.workers.length
        ∧ (workerStart st idx msg).workers[idx]? = some msg
        ∧ (∀ j, j ≠ idx → (workerStart st idx msg).workers[j]? = st.workers[j]?)
        ∧ (workerStart st idx msg).overallPos = st.overallPos) := by
  constructor
  · intro h
    rw [workerStart, if_neg (Nat.not_lt.mpr h)]
  · intro h
    rw [workerStart, if_pos h]
    refine ⟨by simp, ?_, ?_, rfl⟩
    · simp [List.getElem?_set, h]
    · intro j hj
      simp [List.getElem?_set, Ne.symm hj]

/-- C9 witness: an out-of-range update leaves a one-slot state alone; an
in-range update on a two-slot state rewrites slot zero and keeps slot
one. -/
theorem c9_worker_slot_witness :
    workerStart { overallPos := 0, workers := [idleMsg] } 5 busyMsg =
      { overallPos := 0, workers := [idleMsg] }
    ∧ (workerStart { overallPos := 0, workers := [idleMsg, idleMsg] } 0 busyMsg).workers[0]? = some busyMsg
    ∧ (workerStart { overallPos := 0, workers := [idleMsg, idleMsg] } 0 busyMsg).workers[1]? = some idleMsg := by
  refine ⟨?_, ?_, ?_⟩
  · exact (c9_worker_slot_update { overallPos := 0, workers := [idleMsg] } 5 busyMsg).1
      (by decide)
  · exact ((c9_worker_slot_update { overallPos := 0, workers := [idleMsg, idleMsg] } 0
      busyMsg).2 (by decide)).2.1
  · exact ((c9_worker_slot_update { overallPos := 0, workers := [idleMsg, idleMsg] } 0
      busyMsg).2 (by decide)).2.2.1 1 (by decide)

/-- C10: a missing report returns removed zero with no backup and
touches nothing; a non-empty target set matching no url in the tree
leaves the bookmarks content unchanged and unwritten while a backup is
still made; and the bookmarks file is written only when at least one
bookmark was removed. -/
theorem c10_cleanup_frame (fs : FsState) :
    (fs.reportExists = false →
      cleanFailures fs = (fs, { removed := 0, backupMade := false }))
    ∧ (fs.reportExists = true → fs.reportTargets ≠ [] →
        (∀ u ∈ urls fs.bookmarks, u ∉ fs.reportTargets) →
        cleanFailures fs =
          ({ fs with backupMade := true, bookmarksRead := true },
            { removed := 0, backupMade := true }))
    ∧ (fs.bookmarksWritten = false → (cleanFailures fs).1.bookmarksWritten = true →
        (cleanFailures fs).2.removed > 0) := by
  refine ⟨?_, ?_, ?_⟩
  · intro h
    rw [cleanFailures, if_pos h]
  · intro hex hne hfree
    have huntouched := untouched_of_urlFree fs.reportTargets fs.bookmarks hfree
    have hrt : removeTargets fs.reportTargets fs.bookmarks = (0, fs.bookmarks) := by
      rw [removeTargets, huntouched]
    rw [cleanFailures, if_neg (by rw [hex]; intro hc; cases hc),
      if_neg (by simpa using hne)]
    simp only [hrt]
    rfl
  · intro hw
    rw [cleanFailures]
    by_cases h1 : fs.reportExists = false
    · rw [if_pos h1]
      intro hcontra
      rw [hw] at hcontra
      cases hcontra
    · rw [if_neg h1]
      by_cases h2 : fs.reportTargets.isEmpty
      · rw [if_pos h2]
        intro hcontra
        rw [hw] at hcontra
        cases hcontra
      · rw [if_neg h2]
        by_cases h3 : (removeTargets fs.reportTargets fs.bookmarks).1 > 0
        · rw [if_pos h3]
          intro _
          exact h3
        · rw [if_neg h3]
          intro hcontra
          rw [hw] at hcontra
          cases hcontra

/-- C10 witness: the theorem applied to a state without a report file
and to a state whose report targets match nothing in the tree. -/
theorem c10_cleanup_witness :
    cleanFailures exFsNoReport = (exFsNoReport, { removed := 0, backupMade := false })
    ∧ (cleanFailures exFsNoMatch).2.removed = 0
    ∧ (cleanFailures exFsNoMatch).1.bookmarksWritten = false
    ∧ (cleanFailures exFsNoMatch).1.backupMade = true := by
  have h1 := (c10_cleanup_frame exFsNoReport).1 rfl
  have h2 := (c10_cleanup_frame exFsNoMatch).2.1 rfl (by decide) (by decide)
  refine ⟨h1, ?_, ?_, ?_⟩
  · rw [h2]
  · rw [h2]; rfl
  · rw [h2]

end BookmarkChecker
